import Mathlib

/-!
Verification of the bounded-concurrency fetch orchestration engine of
`searxstats/model.py` (searx-space), via a shallow embedding in Lean 4.

Python dictionaries are embedded as association lists (`List (String × Value)`)
with unique keys and insertion order preserved; Python `None` is `Value.vNone`;
generator functions are embedded as functions returning the list of yielded
values; exceptions are embedded with `Except`/`Option`.
-/

namespace SearxSpace

/-- A JSON-like value stored inside an Instance Record (a Python value:
`None`, string, number, boolean, or nested dict). -/
inductive Value where
  | vNone : Value
  | vStr  : String → Value
  | vNat  : Nat → Value
  | vDict : List (String × Value) → Value

/-- An Instance Record: a Python dict from field name to value. -/
abbrev Record := List (String × Value)

/-- Modelled from the spec: `NetworkType` lives in `searxstats/common/http.py`,
which is not part of the given sources. The spec describes it as a closed
classification of an instance URL — ordinary web vs. anonymity-network
overlay — derived purely from the URL string. -/
inductive NetworkType where
  | NORMAL : NetworkType
  | TOR    : NetworkType
deriving Repr, DecidableEq

/-- All members of the `NetworkType` enumeration (Python iterates an `Enum`
class into its members when used as a container). -/
def NetworkType.all : List NetworkType := [NetworkType.NORMAL, NetworkType.TOR]

/-- Modelled from the spec: `get_network_type` (in the missing
`searxstats/common/http.py`) is a pure function `url → NetworkType`,
derived from the URL string alone, no network I/O. -/
def get_network_type (url : String) : NetworkType :=
  if url.endsWith ".onion" || url.endsWith ".onion/" then NetworkType.TOR
  else NetworkType.NORMAL

/-- The `network_type` argument of `iter_instances`: in Python it is either a
single `NetworkType` member, a list of members, or the `NetworkType` class
itself (the default), which as a container holds all members. -/
inductive NTArg where
  | single : NetworkType → NTArg
  | listOf : List NetworkType → NTArg
  | allTypes : NTArg
deriving Repr, DecidableEq

/-- The normalization performed at the top of `iter_instances`:
`if isinstance(network_type, NetworkType): network_type = [network_type]`.
A bare member becomes a one-element list; a list is kept; the `NetworkType`
class (default) acts as the container of all members. -/
def NTArg.normalize : NTArg → List NetworkType
  | NTArg.single t => [t]
  | NTArg.listOf ts => ts
  | NTArg.allTypes => NetworkType.all

/-- The Aggregate Store, `SearxStatisticsResult.__slots__`: `metadata`,
`instances`, `engines`, `categories`, `hashes`, `cidrs`, `forks`,
`engine_errors`, `private`. -/
structure SearxStatisticsResult where
  metadata : Record
  instances : List (String × Record)
  engines : Record
  engine_errors : List Value
  categories : List Value
  hashes : List Value
  cidrs : Record
  forks : List String
  private_ : Bool

/-- Python dict lookup `d.get(k, None)` / key presence `k in d`, with the
first binding of a key the authoritative one (Python dicts have unique keys,
so on well-formed data there is exactly one). -/
def getv (d : List (String × Value)) (k : String) : Option Value :=
  match d with
  | [] => none
  | (k', v) :: rest => if k' = k then some v else getv rest k

/-- `SearxStatisticsResult._is_valid_instance(detail)`:
`detail.get('version', None) is not None and 'error' not in detail`. -/
def is_valid_instance (detail : Record) : Bool :=
  (match getv detail "version" with
   | some Value.vNone => false
   | some _ => true
   | none => false)
  && !(getv detail "error").isSome

/-- The body of the `for` loop of `iter_instances`, as the predicate deciding
whether a given `(instance, detail)` pair is yielded (each `continue` is a
negated conjunct). -/
def iter_keep (private_ : Bool) (only_valid valid_or_private : Bool)
    (nts : List NetworkType) (url : String) (detail : Record) : Bool :=
  let is_valid := is_valid_instance detail
  !(only_valid && !is_valid)
  && !(valid_or_private && !private_ && !is_valid)
  && (nts.contains (get_network_type url))

/-- `SearxStatisticsResult.iter_instances(only_valid, valid_or_private,
network_type)`: normalizes `network_type`, then yields the `(instance, detail)`
pairs of `self.instances` (in insertion order) that pass the three filters.
The generator is embedded as the list of yielded pairs. -/
def iter_instances (s : SearxStatisticsResult)
    (only_valid valid_or_private : Bool) (network_type : NTArg) :
    List (String × Record) :=
  let nts := network_type.normalize
  s.instances.filter
    (fun p => iter_keep s.private_ only_valid valid_or_private nts p.1 p.2)

/-- `SearxStatisticsResult.get_instance(url)`: `return self.instances[url]`.
Python raises `KeyError` when the key is absent; embedded as `Except`. The
store is not modified (the embedding is a pure reader), and an absent key is
an `Except.error` that the function does not catch. -/
def get_instance (s : SearxStatisticsResult) (url : String) :
    Except String Record :=
  match (s.instances.lookup url) with
  | some detail => Except.ok detail
  | none => Except.error "KeyError"

/-- One field of the serialized JSON snapshot built by
`SearxStatisticsResult.write`. -/
inductive JsonField where
  | ofRecord : Record → JsonField
  | ofInstances : List (String × Record) → JsonField
  | ofValues : List Value → JsonField
  | ofStrings : List String → JsonField

/-- The `searx_json` dict literal built by `SearxStatisticsResult.write`
before it is dumped to the output file: exactly the eight listed fields, in
source order. -/
def write_payload (s : SearxStatisticsResult) : List (String × JsonField) :=
  [("metadata", JsonField.ofRecord s.metadata),
   ("instances", JsonField.ofInstances s.instances),
   ("engines", JsonField.ofRecord s.engines),
   ("engine_errors", JsonField.ofValues s.engine_errors),
   ("categories", JsonField.ofValues s.categories),
   ("hashes", JsonField.ofValues s.hashes),
   ("cidrs", JsonField.ofRecord s.cidrs),
   ("forks", JsonField.ofStrings s.forks)]

/-! ### Deep merge (`dict_update` / `dict_merge`)

`dict_update` lives in `searxstats/common/utils.py`, which is not among the
given sources; it is modelled from the spec below. -/

/-- Python dict assignment `d[k] = v` on an association list: if the key is
present its binding is replaced in place (insertion order kept), otherwise
the new binding is appended at the end. -/
def setKey (d : List (String × Value)) (k : String) (v : Value) :
    List (String × Value) :=
  if (getv d k).isSome then
    d.map (fun p => if p.1 = k then (k, v) else p)
  else d ++ [(k, v)]

/-- Modelled from the spec: the recursive dict merge underlying `dict_update`
(`searxstats/common/utils.py`, not in src/). For each binding `(k, mv)` of
the fragment, in order: when both the current value at `k` and `mv` are
dicts they are merged key-by-key recursively; otherwise the leaf value at
`k` is overwritten with `mv`. -/
def dict_merge : List (String × Value) → List (String × Value) →
    List (String × Value)
  | d, [] => d
  | d, (k, Value.vDict msub) :: rest =>
      let d' := match getv d k with
        | some (Value.vDict sub) => setKey d k (Value.vDict (dict_merge sub msub))
        | _ => setKey d k (Value.vDict msub)
      dict_merge d' rest
  | d, (k, mv) :: rest => dict_merge (setKey d k mv) rest
termination_by _ m => sizeOf m
decreasing_by all_goals simp_wf <;> omega

/-- The value `dict_merge` writes at one key: the recursive merge when both
the current value and the fragment value are dicts, the fragment value
itself otherwise (a restatement of the per-binding body of `dict_merge`,
used to reason about it one binding at a time). -/
def merge_val (cur : Option Value) (mv : Value) : Value :=
  match cur, mv with
  | some (Value.vDict sub), Value.vDict msub =>
      Value.vDict (dict_merge sub msub)
  | _, _ => mv

/-- One binding step of `dict_merge`: write the merged value at the key. -/
def merge_step (d : List (String × Value)) (k : String) (mv : Value) :
    List (String × Value) :=
  setKey d k (merge_val (getv d k) mv)

/-- Modelled from the spec: `dict_update(targetRecord, keyPath, value)`
(`searxstats/common/utils.py`, not in src/) merges `value` into
`targetRecord` at the nested `keyPath`: intermediate keys navigate into
(or create) nested dicts; at the final key, existing subtrees are merged
key-by-key (`dict_merge`) while non-dict leaf values are overwritten. -/
def dict_update (d : List (String × Value)) :
    List String → Value → List (String × Value)
  | [], Value.vDict m => dict_merge d m
  | [], _ => d
  | [k], v =>
      match getv d k, v with
      | some (Value.vDict sub), Value.vDict msub =>
          setKey d k (Value.vDict (dict_merge sub msub))
      | _, _ => setKey d k v
  | k :: k2 :: rest, v =>
      let sub := match getv d k with
        | some (Value.vDict s) => s
        | _ => []
      setKey d k (Value.vDict (dict_update sub (k2 :: rest) v))

mutual

/-- Well-formedness of a fragment value: every dict in it has unique keys —
an invariant every value built from Python dict literals satisfies (a Python
dict cannot hold a key twice). -/
def wf_fragment : Value → Bool
  | Value.vDict m => wf_fields m
  | _ => true

/-- Well-formedness of a dict body: keys are unique at this level and every
value is itself well-formed. -/
def wf_fields : List (String × Value) → Bool
  | [] => true
  | (k, v) :: rest => !(getv rest k).isSome && wf_fragment v && wf_fields rest

end

/-! ### Probe Adapter (`Fetcher`) and tasks -/

/-- A probe's raw `fetch` entry point as a state transformer on the store
that may raise an exception (`Except.error`). -/
def FetchFn : Type := SearxStatisticsResult → Except String SearxStatisticsResult

/-- A function that can no longer raise: it returns the resulting store
together with the message of a caught-and-logged exception, if any. -/
def SafeFn : Type := SearxStatisticsResult → SearxStatisticsResult × Option String

/-- Modelled from the spec: `print_exception_wrapper`
(`searxstats/common/utils.py`, not in src/) decorates a task body so that
any exception raised inside it is caught, logged with full diagnostic
context, and swallowed — converted into a non-fatal logged event. -/
def print_exception_wrapper (f : FetchFn) : SafeFn :=
  fun s => match f s with
  | Except.ok s' => (s', none)
  | Except.error e => (s, some e)

/-- An attribute of a Python probe module: a function, or any non-function
value (`inspect.isfunction` distinguishes the two in `get_function`). -/
inductive ModuleAttr where
  | func : FetchFn → ModuleAttr
  | nonFunc : Value → ModuleAttr

/-- A probe module: its `__name__` and its attribute dictionary. -/
structure FetchModule where
  module_name : String
  attrs : List (String × ModuleAttr)

/-- `Fetcher.__slots__`: `name`, `help_message`, `fetch_module`,
`group_name`, `mandatory`. Immutable after construction. -/
structure Fetcher where
  fetch_module : FetchModule
  name : String
  help_message : String
  group_name : Option String
  mandatory : Bool

/-- `Fetcher.get_function(name)`: `hasattr` then `getattr` then
`inspect.isfunction`; returns `None` unless the attribute exists and is a
function. -/
def Fetcher.get_function (f : Fetcher) (fname : String) : Option FetchFn :=
  match f.fetch_module.attrs.lookup fname with
  | some (ModuleAttr.func fn) => some fn
  | _ => none

/-- The unit of concurrent work produced by `create_task` (in the missing
`searxstats/common/utils.py`) or by the `dummy()` coroutine of
`create_initialize_task`. `task o` carries the (already wrapped, for fetch
tasks) body that `create_task` was given — `o = none` when `get_function`
returned `None` and that `None` was passed along as the body. -/
inductive ProbeTask where
  | task : Option SafeFn → ProbeTask
  | dummy : ProbeTask

/-- `Fetcher.create_fetch_task(loop, executor, searx_stats_result)`:
`fetch = self.get_function('fetch'); safe_fetch =
print_exception_wrapper(fetch); return create_task(..., safe_fetch, ...)`.
There is no check that `fetch` is present: whatever `get_function` returned
(including `None`) is wrapped and handed to `create_task`. -/
def Fetcher.create_fetch_task (f : Fetcher) : ProbeTask :=
  ProbeTask.task ((f.get_function "fetch").map print_exception_wrapper)

/-- `Fetcher.create_initialize_task(loop, executor)`: runs the module's
`initialize` function when present, and otherwise returns the no-op
coroutine `dummy()`. -/
def Fetcher.create_initialize_task (f : Fetcher) : ProbeTask :=
  match f.get_function "initialize" with
  | some fn => ProbeTask.task (some (print_exception_wrapper fn))
  | none => ProbeTask.dummy

/-- The outcome of awaiting one probe task: the resulting store, the message
of an exception that was caught and logged inside the task (non-fatal), and
the message of an exception that escaped the task (fatal for the await). -/
structure TaskOutcome where
  store : SearxStatisticsResult
  logged : Option String
  raised : Option String

/-- Awaiting a probe task. A `task (some body)` runs its body, whose type
already guarantees exceptions were handled inside; `dummy` does nothing.
Awaiting `task none` (a body that was `None`) fails with a `TypeError`; no
theorem below relies on the detail of that branch, which depends on code
outside src/. -/
def ProbeTask.run : ProbeTask → SearxStatisticsResult → TaskOutcome
  | ProbeTask.task (some body), s =>
      let r := body s
      ⟨r.1, r.2, none⟩
  | ProbeTask.task none, s => ⟨s, none, some "TypeError"⟩
  | ProbeTask.dummy, s => ⟨s, none, none⟩

/-! ### Bounded Concurrency Driver (`for_each`)

`for_each` lives in `searxstats/common/foreach.py`, which is not among the
given sources; the driver below is modelled from the spec: apply an
operation to every element of a sequence with at most `limit` invocations in
flight, starting a new invocation as soon as a slot frees, capturing
per-element failures without halting the rest, and completing only once
every element has been attempted exactly once. Time is modelled as discrete
scheduler ticks of a single-threaded cooperative scheduler. -/

/-- One per-instance unit of work in a fetch pass: how many scheduler ticks
its invocation takes (`steps + 1 ≥ 1` is used, so no invocation completes
in zero ticks), and whether it eventually raises. -/
structure Job where
  steps : Nat
  fails : Bool

/-- The driver's state: elements not yet started (in input order), the
in-flight invocations (remaining tick count, paired with the failure flag
the invocation will report), and the captured outcome (`true` = the failure
was caught and recorded, not propagated) of every completed invocation. -/
structure DriverState where
  pending : List Job
  inflight : List (Nat × Bool)
  results : List Bool

/-- The fill phase of one scheduler tick: while a slot is free
(`inflight.length < limit`) and the sequence is not exhausted, start the
next invocation (lazily, in input order). -/
def driver_fill (limit : Nat) (st : DriverState) : DriverState :=
  let n := limit - st.inflight.length
  { st with
    pending := st.pending.drop n,
    inflight :=
      st.inflight ++ (st.pending.take n).map (fun j => (j.steps + 1, j.fails)) }

/-- The advance phase of one scheduler tick: every in-flight invocation
makes one tick of progress; those reaching zero complete, and their outcome
(success, or the captured failure) is appended to the results — a failure is
recorded exactly like a success, never rethrown at the siblings. -/
def driver_advance (st : DriverState) : DriverState :=
  let dec := st.inflight.map (fun p => (p.1 - 1, p.2))
  { st with
    inflight := dec.filter (fun p => p.1 ≠ 0),
    results := st.results ++ (dec.filter (fun p => p.1 = 0)).map Prod.snd }

/-- One scheduler tick of the driver: fill free slots, then advance every
in-flight invocation by one tick. -/
def driver_step (limit : Nat) (st : DriverState) : DriverState :=
  driver_advance (driver_fill limit st)

/-- Running the driver for `fuel` scheduler ticks. -/
def driver_run (limit : Nat) : Nat → DriverState → DriverState
  | 0, st => st
  | fuel + 1, st => driver_run limit fuel (driver_step limit st)

/-- The driver's initial state on an input sequence. -/
def driver_init (jobs : List Job) : DriverState := ⟨jobs, [], []⟩

/-- The driver is done: the sequence is exhausted and no invocation is in
flight. -/
def driver_done (st : DriverState) : Prop :=
  st.pending = [] ∧ st.inflight = []

/-- Total remaining work of a driver state, in scheduler ticks. -/
def driver_measure (st : DriverState) : Nat :=
  (st.pending.map (fun j => j.steps + 1)).sum + (st.inflight.map Prod.fst).sum

/-- The jobs of one probe's fetch pass as driven by the `for_each` call in
the factory-produced `fetch`: one job per `(url, detail)` pair yielded by
`iter_instances`, with an arbitrary duration and failure outcome per
instance. -/
def fetch_pass_jobs (s : SearxStatisticsResult)
    (only_valid valid_or_private : Bool) (network_type : NTArg)
    (durations : String → Nat) (fails : String → Bool) : List Job :=
  (iter_instances s only_valid valid_or_private network_type).map
    (fun p => ⟨durations p.1, fails p.1⟩)

/-! ### Concrete demonstration data -/

/-- A *valid* Instance Record: a `version` and no `error`. -/
def demo_valid : Record := [("version", Value.vStr "1.0")]

/-- An *invalid* Instance Record: an `error` field. -/
def demo_invalid : Record := [("error", Value.vStr "timeout")]

/-- A *pending* Instance Record: neither `version` nor `error`. -/
def demo_pending : Record := []

/-- A store holding one valid, one invalid and one pending instance, in that
insertion order, with the given `private` flag. -/
def demo_store (priv : Bool) : SearxStatisticsResult :=
  { metadata := [],
    instances := [("u1", demo_valid), ("u2", demo_invalid), ("u3", demo_pending)],
    engines := [], engine_errors := [], categories := [], hashes := [],
    cidrs := [], forks := [], private_ := priv }

/-- A probe module with no attributes at all (neither `fetch` nor
`initialize`). -/
def demo_empty_fetcher : Fetcher :=
  { fetch_module := ⟨"demo_empty", []⟩, name := "demo_empty",
    help_message := "", group_name := none, mandatory := false }

/-- A raw `fetch` entry point that always raises. -/
def demo_raising_fetch : FetchFn := fun _ => Except.error "boom"

/-- A probe module whose `fetch` entry point always raises. -/
def demo_raising_fetcher : Fetcher :=
  { fetch_module := ⟨"demo_raising", [("fetch", ModuleAttr.func demo_raising_fetch)]⟩,
    name := "demo_raising", help_message := "", group_name := none,
    mandatory := false }

end SearxSpace

/-! ## Helper lemmas -/

namespace SearxSpace

theorem mem_iter_instances {s : SearxStatisticsResult} {ov vp : Bool}
    {nt : NTArg} {p : String × Record} :
    p ∈ iter_instances s ov vp nt ↔
      p ∈ s.instances ∧ iter_keep s.private_ ov vp nt.normalize p.1 p.2 = true := by
  unfold iter_instances
  exact List.mem_filter

theorem iter_keep_only_valid {pr vp : Bool} {nts : List NetworkType}
    {url : String} {d : Record} (h : iter_keep pr true vp nts url d = true) :
    is_valid_instance d = true := by
  unfold iter_keep at h
  cases hv : is_valid_instance d <;> simp [hv] at h ⊢

theorem iter_keep_valid_or_private {ov : Bool} {nts : List NetworkType}
    {url : String} {d : Record} (h : iter_keep false ov true nts url d = true) :
    is_valid_instance d = true := by
  unfold iter_keep at h
  cases hv : is_valid_instance d <;> simp [hv] at h ⊢

theorem is_valid_instance_spec {d : Record} (h : is_valid_instance d = true) :
    (∃ v, getv d "version" = some v ∧ v ≠ Value.vNone) ∧ getv d "error" = none := by
  unfold is_valid_instance at h
  rcases hb : getv d "version" with _ | v
  · rw [hb] at h; simp at h
  · rw [hb] at h
    cases v <;> simp_all [Option.isSome]
    all_goals cases he : getv d "error" <;> simp_all

theorem getv_append (xs ys : List (String × Value)) (k : String) :
    getv (xs ++ ys) k =
      match getv xs k with
      | some v => some v
      | none => getv ys k := by
  induction xs with
  | nil => rfl
  | cons p rest ih =>
    rcases p with ⟨a, b⟩
    by_cases hak : a = k <;> simp [getv, hak, ih]

theorem getv_eq_none_iff {d : List (String × Value)} {k : String} :
    getv d k = none ↔ ∀ p ∈ d, p.1 ≠ k := by
  induction d with
  | nil => simp [getv]
  | cons p rest ih =>
    rcases p with ⟨a, b⟩
    by_cases hak : a = k <;> simp [getv, hak, ih]

theorem map_set_id {d : List (String × Value)} {k : String} {v : Value}
    (h : ∀ p ∈ d, p.1 ≠ k) :
    d.map (fun p => if p.1 = k then (k, v) else p) = d := by
  induction d with
  | nil => rfl
  | cons p rest ih =>
    have hp : p.1 ≠ k := h p (List.Mem.head _)
    simp [hp, ih (fun q hq => h q (List.Mem.tail _ hq))]

theorem getv_map_set_self (d : List (String × Value)) (k : String) (v : Value)
    (h : (getv d k).isSome = true) :
    getv (d.map (fun p => if p.1 = k then (k, v) else p)) k = some v := by
  induction d with
  | nil => simp [getv] at h
  | cons p rest ih =>
    rcases p with ⟨a, b⟩
    by_cases hak : a = k
    · subst hak
      simp only [List.map_cons, if_true, eq_self_iff_true, if_pos]
      simp [getv]
    · simp only [List.map_cons, if_neg hak]
      simp only [getv, if_neg hak] at h ⊢
      exact ih h

theorem getv_map_set_ne (d : List (String × Value)) {k k' : String} (v : Value)
    (h : k' ≠ k) :
    getv (d.map (fun p => if p.1 = k then (k, v) else p)) k' = getv d k' := by
  induction d with
  | nil => rfl
  | cons p rest ih =>
    rcases p with ⟨a, b⟩
    by_cases hak : a = k
    · subst hak
      simp only [List.map_cons, if_true, eq_self_iff_true, if_pos]
      simp only [getv, if_neg (Ne.symm h), if_neg]
      exact ih
    · simp only [List.map_cons, if_neg hak]
      by_cases hak' : a = k' <;> simp [getv, hak', ih]

theorem getv_eq_none_of_not_isSome {d : List (String × Value)} {k : String}
    (h : ¬(getv d k).isSome = true) : getv d k = none := by
  cases hg : getv d k
  · rfl
  · rw [hg] at h
    simp at h

theorem getv_setKey_self (d : List (String × Value)) (k : String) (v : Value) :
    getv (setKey d k v) k = some v := by
  unfold setKey
  by_cases h : (getv d k).isSome <;> simp [h]
  · exact getv_map_set_self d k v h
  · rw [getv_append, getv_eq_none_of_not_isSome h]
    simp [getv]

theorem getv_setKey_ne (d : List (String × Value)) {k k' : String} (v : Value)
    (h : k' ≠ k) : getv (setKey d k v) k' = getv d k' := by
  unfold setKey
  by_cases hs : (getv d k).isSome <;> simp [hs]
  · exact getv_map_set_ne d v h
  · rw [getv_append]
    cases hg : getv d k'
    · simp [getv, Ne.symm h]
    · simp

theorem wf_fields_cons {a : String} {b : Value}
    {rest : List (String × Value)}
    (h : wf_fields ((a, b) :: rest) = true) :
    getv rest a = none ∧ wf_fragment b = true ∧ wf_fields rest = true := by
  unfold wf_fields at h
  simp [Bool.and_eq_true] at h
  refine ⟨?_, h.1.2, h.2⟩
  cases hg : getv rest a
  · rfl
  · rw [hg] at h
    simp [Option.isSome] at h

theorem setKey_getv_eq {d : List (String × Value)} {k : String} {v : Value}
    (hwf : wf_fields d = true) (h : getv d k = some v) : setKey d k v = d := by
  induction d with
  | nil => simp [getv] at h
  | cons p rest ih =>
    rcases p with ⟨a, b⟩
    obtain ⟨hna, _, hwr⟩ := wf_fields_cons hwf
    unfold setKey
    by_cases hak : a = k
    · subst hak
      simp [getv] at h
      subst h
      simp [getv, map_set_id (getv_eq_none_iff.1 hna)]
    · simp only [getv, if_neg hak] at h
      have hrec := ih hwr h
      unfold setKey at hrec
      rw [h] at hrec
      simp at hrec
      have hcond : (getv ((a, b) :: rest) k).isSome = true := by
        simp [getv, hak, h]
      simp [hcond, hak, hrec]

theorem setKey_cons_ne {a k : String} (b v : Value)
    (rest : List (String × Value)) (h : a ≠ k) :
    setKey ((a, b) :: rest) k v = (a, b) :: setKey rest k v := by
  unfold setKey
  simp only [getv, if_neg h]
  by_cases hs : (getv rest k).isSome <;> simp [hs, h]

theorem setKey_cons_self {k : String} (b v : Value)
    (rest : List (String × Value)) (hna : getv rest k = none) :
    setKey ((k, b) :: rest) k v = (k, v) :: rest := by
  unfold setKey
  simp only [getv, if_pos rfl]
  simp [map_set_id (getv_eq_none_iff.1 hna)]

theorem wf_getv {d : List (String × Value)} {k : String} {v : Value}
    (hd : wf_fields d = true) (h : getv d k = some v) :
    wf_fragment v = true := by
  induction d with
  | nil => simp [getv] at h
  | cons p rest ih =>
    rcases p with ⟨a, b⟩
    obtain ⟨_, hb, hrest⟩ := wf_fields_cons hd
    by_cases hak : a = k
    · subst hak
      simp [getv] at h
      rw [h] at hb
      exact hb
    · simp only [getv, if_neg hak] at h
      exact ih hrest h

theorem wf_setKey {d : List (String × Value)} {k : String} {v : Value}
    (hd : wf_fields d = true) (hv : wf_fragment v = true) :
    wf_fields (setKey d k v) = true := by
  induction d with
  | nil => simp [setKey, getv, wf_fields, hv]
  | cons p rest ih =>
    rcases p with ⟨a, b⟩
    obtain ⟨hna, hb, hrest⟩ := wf_fields_cons hd
    by_cases hak : a = k
    · subst hak
      rw [setKey_cons_self b v rest hna]
      simp [wf_fields, hna, hv, hrest]
    · rw [setKey_cons_ne b v rest hak]
      have hga : getv (setKey rest k v) a = getv rest a :=
        getv_setKey_ne rest v hak
      simp [wf_fields, hga, hna, hb, ih hrest]

theorem dict_merge_cons (d : List (String × Value)) (k : String) (mv : Value)
    (rest : List (String × Value)) :
    dict_merge d ((k, mv) :: rest) = dict_merge (merge_step d k mv) rest := by
  cases hg : getv d k with
  | none => cases mv <;> simp [dict_merge, merge_step, merge_val, hg]
  | some w => cases w <;> cases mv <;> simp [dict_merge, merge_step, merge_val, hg]

theorem getv_merge_step_ne (d : List (String × Value)) {k k' : String}
    (mv : Value) (h : k' ≠ k) : getv (merge_step d k mv) k' = getv d k' :=
  getv_setKey_ne d _ h

theorem getv_merge_step_self (d : List (String × Value)) (k : String)
    (mv : Value) :
    getv (merge_step d k mv) k = some (merge_val (getv d k) mv) :=
  getv_setKey_self d k _

theorem getv_dict_merge_not_mem {m : List (String × Value)} {k' : String}
    (d : List (String × Value)) (h : getv m k' = none) :
    getv (dict_merge d m) k' = getv d k' := by
  induction m generalizing d with
  | nil => simp [dict_merge]
  | cons p rest ih =>
    rcases p with ⟨k, mv⟩
    by_cases hk : k = k'
    · subst hk
      simp [getv] at h
    · simp only [getv, if_neg hk] at h
      rw [dict_merge_cons, ih (merge_step d k mv) h,
        getv_merge_step_ne d mv (Ne.symm hk)]

theorem getv_of_mem_wf {m : List (String × Value)} {p : String × Value}
    (hm : wf_fields m = true) (hp : p ∈ m) : getv m p.1 = some p.2 := by
  induction m with
  | nil => cases hp
  | cons q rest ih =>
    rcases q with ⟨a, b⟩
    obtain ⟨hna, _, hrest⟩ := wf_fields_cons hm
    cases hp with
    | head => simp [getv]
    | tail _ htail =>
      have hrec := ih hrest htail
      by_cases hap : a = p.1
      · exfalso
        rw [← hap] at hrec
        rw [hna] at hrec
        cases hrec
      · simp only [getv, if_neg hap]
        exact hrec

theorem wf_dict_merge : ∀ (m d : List (String × Value)),
    wf_fields d = true → wf_fields m = true →
    wf_fields (dict_merge d m) = true
  | [], d, hd, _ => by simpa [dict_merge] using hd
  | (k, mv) :: rest, d, hd, hm => by
    obtain ⟨hna, hfrag, hrest⟩ := wf_fields_cons hm
    rw [dict_merge_cons]
    have hw : wf_fragment (merge_val (getv d k) mv) = true := by
      cases hg : getv d k with
      | none => cases mv <;> simpa [merge_val] using hfrag
      | some w =>
        cases w <;> cases mv <;> try simpa [merge_val] using hfrag
        case vDict.vDict sub msub =>
          have hsub : wf_fields sub = true := by
            simpa [wf_fragment] using wf_getv hd hg
          have hmsub : wf_fields msub = true := by
            simpa [wf_fragment] using hfrag
          simpa [merge_val, wf_fragment] using wf_dict_merge msub sub hsub hmsub
    exact wf_dict_merge rest (merge_step d k mv) (wf_setKey hd hw) hrest
termination_by m _ => sizeOf m

/-- `merge_val` preserves well-formedness. -/
theorem wf_merge_val {d : List (String × Value)} {k : String} {mv : Value}
    (hd : wf_fields d = true) (hm : wf_fragment mv = true) :
    wf_fragment (merge_val (getv d k) mv) = true := by
  cases hg : getv d k with
  | none => cases mv <;> simpa [merge_val] using hm
  | some w =>
    cases w <;> cases mv <;> try simpa [merge_val] using hm
    case vDict.vDict sub msub =>
      have hsub : wf_fields sub = true := by
        simpa [wf_fragment] using wf_getv hd hg
      have hmsub : wf_fields msub = true := by simpa [wf_fragment] using hm
      simpa [merge_val, wf_fragment] using wf_dict_merge msub sub hsub hmsub

theorem wf_merge_step {d : List (String × Value)} {k : String} {mv : Value}
    (hd : wf_fields d = true) (hm : wf_fragment mv = true) :
    wf_fields (merge_step d k mv) = true :=
  wf_setKey hd (wf_merge_val hd hm)

/-- Merging a fragment whose bindings the target already holds verbatim is a
no-op. -/
theorem dict_merge_absorb : ∀ (m d : List (String × Value)),
    wf_fields d = true → wf_fields m = true →
    (∀ p ∈ m, getv d p.1 = some p.2) → dict_merge d m = d
  | [], _, _, _, _ => by simp [dict_merge]
  | (k, mv) :: rest, d, hd, hm, hmem => by
    obtain ⟨hna, hfrag, hrest⟩ := wf_fields_cons hm
    have hk : getv d k = some mv := hmem (k, mv) (List.Mem.head _)
    have hval : merge_val (getv d k) mv = mv := by
      rw [hk]
      cases mv <;> try simp [merge_val]
      case vDict msub =>
        have hmsub : wf_fields msub = true := by simpa [wf_fragment] using hfrag
        exact dict_merge_absorb msub msub hmsub hmsub
          (fun p hp => getv_of_mem_wf hmsub hp)
    have hstep : merge_step d k mv = d := by
      unfold merge_step
      rw [hval]
      exact setKey_getv_eq hd hk
    rw [dict_merge_cons, hstep]
    exact dict_merge_absorb rest d hd hrest
      (fun p hp => hmem p (List.Mem.tail _ hp))
termination_by m _ => sizeOf m

/-- Applying the same well-formed fragment twice with `dict_merge` is the
same as applying it once. -/
theorem dict_merge_idem : ∀ (m d : List (String × Value)),
    wf_fields d = true → wf_fields m = true →
    dict_merge (dict_merge d m) m = dict_merge d m
  | [], d, _, _ => by simp [dict_merge]
  | (k, mv) :: rest, d, hd, hm => by
    obtain ⟨hna, hfrag, hrest⟩ := wf_fields_cons hm
    have hd1 : wf_fields (merge_step d k mv) = true := wf_merge_step hd hfrag
    have hd2 : wf_fields (dict_merge (merge_step d k mv) rest) = true :=
      wf_dict_merge rest (merge_step d k mv) hd1 hrest
    have hg2 : getv (dict_merge (merge_step d k mv) rest) k
        = some (merge_val (getv d k) mv) := by
      rw [getv_dict_merge_not_mem (merge_step d k mv) hna]
      exact getv_merge_step_self d k mv
    have hvv : merge_val (some (merge_val (getv d k) mv)) mv
        = merge_val (getv d k) mv := by
      cases mv with
      | vDict msub =>
        have hmsub : wf_fields msub = true := by simpa [wf_fragment] using hfrag
        cases hgd : getv d k with
        | none =>
          simp [merge_val]
          exact dict_merge_absorb msub msub hmsub hmsub
            (fun p hp => getv_of_mem_wf hmsub hp)
        | some w0 =>
          cases w0 <;> try
            (simp [merge_val];
             exact dict_merge_absorb msub msub hmsub hmsub
               (fun p hp => getv_of_mem_wf hmsub hp))
          case vDict sub =>
            have hsub : wf_fields sub = true := by
              simpa [wf_fragment] using wf_getv hd hgd
            simp [merge_val]
            exact dict_merge_idem msub sub hsub hmsub
      | vNone => cases hgd : getv d k <;> simp [merge_val]
      | vStr st => cases hgd : getv d k <;> simp [merge_val]
      | vNat n => cases hgd : getv d k <;> simp [merge_val]
    have hstep2 : merge_step (dict_merge (merge_step d k mv) rest) k mv
        = dict_merge (merge_step d k mv) rest := by
      have hunf : merge_step (dict_merge (merge_step d k mv) rest) k mv
          = setKey (dict_merge (merge_step d k mv) rest) k
              (merge_val (getv (dict_merge (merge_step d k mv) rest) k) mv) :=
        rfl
      rw [hunf, hg2, hvv]
      exact setKey_getv_eq hd2 hg2
    rw [dict_merge_cons d, dict_merge_cons _ k mv rest, hstep2]
    exact dict_merge_idem rest (merge_step d k mv) hd1 hrest
termination_by m _ => sizeOf m

theorem wf_fields_nil : wf_fields [] = true := by simp [wf_fields]

/-- The nested dict a `dict_update` path step descends into is well-formed. -/
theorem wf_update_sub {d : List (String × Value)} {k : String}
    (hd : wf_fields d = true) :
    wf_fields
      (match getv d k with
       | some (Value.vDict s) => s
       | _ => []) = true := by
  cases hg : getv d k with
  | none => exact wf_fields_nil
  | some w =>
    cases w <;> try exact wf_fields_nil
    case vDict s => simpa [wf_fragment] using wf_getv hd hg

theorem wf_dict_update : ∀ (ks : List String) (d : List (String × Value))
    (v : Value), wf_fields d = true → wf_fragment v = true →
    wf_fields (dict_update d ks v) = true
  | [], d, v, hd, hv => by
    cases v <;> try simpa [dict_update] using hd
    case vDict m =>
      simpa [dict_update] using
        wf_dict_merge m d hd (by simpa [wf_fragment] using hv)
  | [k], d, v, hd, hv => by
    cases hg : getv d k with
    | none =>
      cases v <;> simp [dict_update, hg] <;> exact wf_setKey hd hv
    | some w0 =>
      cases w0 <;> cases v <;> try (simp [dict_update, hg]; exact wf_setKey hd hv)
      case vDict.vDict sub msub =>
        simp [dict_update, hg]
        have hsub : wf_fields sub = true := by
          simpa [wf_fragment] using wf_getv hd hg
        have hmsub : wf_fields msub = true := by simpa [wf_fragment] using hv
        exact wf_setKey hd
          (by simpa [wf_fragment] using wf_dict_merge msub sub hsub hmsub)
  | k :: k2 :: rest, d, v, hd, hv => by
    have hsub := wf_update_sub (k := k) hd
    have hu := wf_dict_update (k2 :: rest) _ v hsub hv
    exact wf_setKey hd (by simpa [wf_fragment] using hu)

/-- Applying the same well-formed `dict_update` twice is the same as
applying it once. -/
theorem dict_update_idem : ∀ (ks : List String) (d : List (String × Value))
    (v : Value), wf_fields d = true → wf_fragment v = true →
    dict_update (dict_update d ks v) ks v = dict_update d ks v
  | [], d, v, hd, hv => by
    cases v <;> try simp [dict_update]
    case vDict m =>
      exact dict_merge_idem m d hd (by simpa [wf_fragment] using hv)
  | [k], d, v, hd, hv => by
    cases v with
    | vDict msub =>
      have hmsub : wf_fields msub = true := by simpa [wf_fragment] using hv
      cases hg : getv d k with
      | some w0 =>
        cases w0 with
        | vDict sub =>
          have hsub : wf_fields sub = true := by
            simpa [wf_fragment] using wf_getv hd hg
          have h1 : dict_update d [k] (Value.vDict msub)
              = setKey d k (Value.vDict (dict_merge sub msub)) := by
            simp [dict_update, hg]
          have hg1 : getv (setKey d k (Value.vDict (dict_merge sub msub))) k
              = some (Value.vDict (dict_merge sub msub)) :=
            getv_setKey_self d k _
          have hwf1 : wf_fields (setKey d k
              (Value.vDict (dict_merge sub msub))) = true :=
            wf_setKey hd
              (by simpa [wf_fragment] using wf_dict_merge msub sub hsub hmsub)
          rw [h1]
          have h2 : dict_update (setKey d k (Value.vDict (dict_merge sub msub)))
              [k] (Value.vDict msub)
              = setKey (setKey d k (Value.vDict (dict_merge sub msub))) k
                  (Value.vDict (dict_merge (dict_merge sub msub) msub)) := by
            simp [dict_update, hg1]
          rw [h2, dict_merge_idem msub sub hsub hmsub]
          exact setKey_getv_eq hwf1 hg1
        | vNone =>
          have h1 : dict_update d [k] (Value.vDict msub)
              = setKey d k (Value.vDict msub) := by
            simp [dict_update, hg]
          have hg1 : getv (setKey d k (Value.vDict msub)) k
              = some (Value.vDict msub) := getv_setKey_self d k _
          have hwf1 : wf_fields (setKey d k (Value.vDict msub)) = true :=
            wf_setKey hd hv
          rw [h1]
          have h2 : dict_update (setKey d k (Value.vDict msub)) [k]
              (Value.vDict msub)
              = setKey (setKey d k (Value.vDict msub)) k
                  (Value.vDict (dict_merge msub msub)) := by
            simp [dict_update, hg1]
          rw [h2, dict_merge_absorb msub msub hmsub hmsub
            (fun p hp => getv_of_mem_wf hmsub hp)]
          exact setKey_getv_eq hwf1 hg1
        | vStr s0 =>
          have h1 : dict_update d [k] (Value.vDict msub)
              = setKey d k (Value.vDict msub) := by
            simp [dict_update, hg]
          have hg1 : getv (setKey d k (Value.vDict msub)) k
              = some (Value.vDict msub) := getv_setKey_self d k _
          have hwf1 : wf_fields (setKey d k (Value.vDict msub)) = true :=
            wf_setKey hd hv
          rw [h1]
          have h2 : dict_update (setKey d k (Value.vDict msub)) [k]
              (Value.vDict msub)
              = setKey (setKey d k (Value.vDict msub)) k
                  (Value.vDict (dict_merge msub msub)) := by
            simp [dict_update, hg1]
          rw [h2, dict_merge_absorb msub msub hmsub hmsub
            (fun p hp => getv_of_mem_wf hmsub hp)]
          exact setKey_getv_eq hwf1 hg1
        | vNat n0 =>
          have h1 : dict_update d [k] (Value.vDict msub)
              = setKey d k (Value.vDict msub) := by
            simp [dict_update, hg]
          have hg1 : getv (setKey d k (Value.vDict msub)) k
              = some (Value.vDict msub) := getv_setKey_self d k _
          have hwf1 : wf_fields (setKey d k (Value.vDict msub)) = true :=
            wf_setKey hd hv
          rw [h1]
          have h2 : dict_update (setKey d k (Value.vDict msub)) [k]
              (Value.vDict msub)
              = setKey (setKey d k (Value.vDict msub)) k
                  (Value.vDict (dict_merge msub msub)) := by
            simp [dict_update, hg1]
          rw [h2, dict_merge_absorb msub msub hmsub hmsub
            (fun p hp => getv_of_mem_wf hmsub hp)]
          exact setKey_getv_eq hwf1 hg1
      | none =>
        have h1 : dict_update d [k] (Value.vDict msub)
            = setKey d k (Value.vDict msub) := by
          simp [dict_update, hg]
        have hg1 : getv (setKey d k (Value.vDict msub)) k
            = some (Value.vDict msub) := getv_setKey_self d k _
        have hwf1 : wf_fields (setKey d k (Value.vDict msub)) = true :=
          wf_setKey hd hv
        rw [h1]
        have h2 : dict_update (setKey d k (Value.vDict msub)) [k]
            (Value.vDict msub)
            = setKey (setKey d k (Value.vDict msub)) k
                (Value.vDict (dict_merge msub msub)) := by
          simp [dict_update, hg1]
        rw [h2, dict_merge_absorb msub msub hmsub hmsub
          (fun p hp => getv_of_mem_wf hmsub hp)]
        exact setKey_getv_eq hwf1 hg1
    | vNone =>
      have h1 : dict_update d [k] Value.vNone = setKey d k Value.vNone := by
        cases hg : getv d k with
        | none => simp [dict_update, hg]
        | some w0 => cases w0 <;> simp [dict_update, hg]
      rw [h1]
      have hg1 : getv (setKey d k Value.vNone) k = some Value.vNone :=
        getv_setKey_self d k _
      have h2 : dict_update (setKey d k Value.vNone) [k] Value.vNone
          = setKey (setKey d k Value.vNone) k Value.vNone := by
        simp [dict_update, hg1]
      rw [h2]
      exact setKey_getv_eq (wf_setKey hd hv) hg1
    | vStr s0 =>
      have h1 : dict_update d [k] (Value.vStr s0) = setKey d k (Value.vStr s0) := by
        cases hg : getv d k with
        | none => simp [dict_update, hg]
        | some w0 => cases w0 <;> simp [dict_update, hg]
      rw [h1]
      have hg1 : getv (setKey d k (Value.vStr s0)) k = some (Value.vStr s0) :=
        getv_setKey_self d k _
      have h2 : dict_update (setKey d k (Value.vStr s0)) [k] (Value.vStr s0)
          = setKey (setKey d k (Value.vStr s0)) k (Value.vStr s0) := by
        simp [dict_update, hg1]
      rw [h2]
      exact setKey_getv_eq (wf_setKey hd hv) hg1
    | vNat n0 =>
      have h1 : dict_update d [k] (Value.vNat n0) = setKey d k (Value.vNat n0) := by
        cases hg : getv d k with
        | none => simp [dict_update, hg]
        | some w0 => cases w0 <;> simp [dict_update, hg]
      rw [h1]
      have hg1 : getv (setKey d k (Value.vNat n0)) k = some (Value.vNat n0) :=
        getv_setKey_self d k _
      have h2 : dict_update (setKey d k (Value.vNat n0)) [k] (Value.vNat n0)
          = setKey (setKey d k (Value.vNat n0)) k (Value.vNat n0) := by
        simp [dict_update, hg1]
      rw [h2]
      exact setKey_getv_eq (wf_setKey hd hv) hg1
  | k :: k2 :: rest, d, v, hd, hv => by
    have hsub := wf_update_sub (k := k) hd
    have hu := wf_dict_update (k2 :: rest) _ v hsub hv
    have h1 : dict_update d (k :: k2 :: rest) v
        = setKey d k (Value.vDict (dict_update
            (match getv d k with
             | some (Value.vDict s) => s
             | _ => []) (k2 :: rest) v)) := rfl
    rw [h1]
    have hg1 : getv (setKey d k (Value.vDict (dict_update
        (match getv d k with
         | some (Value.vDict s) => s
         | _ => []) (k2 :: rest) v))) k
        = some (Value.vDict (dict_update
            (match getv d k with
             | some (Value.vDict s) => s
             | _ => []) (k2 :: rest) v)) := getv_setKey_self d k _
    have h2 : dict_update (setKey d k (Value.vDict (dict_update
        (match getv d k with
         | some (Value.vDict s) => s
         | _ => []) (k2 :: rest) v))) (k :: k2 :: rest) v
        = setKey (setKey d k (Value.vDict (dict_update
            (match getv d k with
             | some (Value.vDict s) => s
             | _ => []) (k2 :: rest) v))) k
            (Value.vDict (dict_update (dict_update
              (match getv d k with
               | some (Value.vDict s) => s
               | _ => []) (k2 :: rest) v) (k2 :: rest) v)) := by
      simp [dict_update, hg1]
    rw [h2, dict_update_idem (k2 :: rest) _ v hsub hv]
    exact setKey_getv_eq (wf_setKey hd (by simpa [wf_fragment] using hu)) hg1

/-- `dict_update` along a non-empty path touches only the head key at the
top level. -/
theorem dict_update_getv_ne (d : List (String × Value)) (k : String)
    (ks : List String) (v : Value) {k' : String} (h : k' ≠ k) :
    getv (dict_update d (k :: ks) v) k' = getv d k' := by
  cases ks with
  | nil =>
    cases hg : getv d k with
    | none =>
      cases v <;> simp only [dict_update, hg] <;> exact getv_setKey_ne d _ h
    | some w0 =>
      cases w0 <;> cases v <;> simp only [dict_update, hg] <;>
        exact getv_setKey_ne d _ h
  | cons k2 rest => exact getv_setKey_ne d _ h

/-! ### Driver lemmas -/

/-- The driver's run invariant: no element is lost or duplicated (the counts
of not-yet-started, in-flight and completed invocations always sum to the
input size), and every in-flight invocation has at least one tick left. -/
def driver_invariant (M : Nat) (st : DriverState) : Prop :=
  st.pending.length + st.inflight.length + st.results.length = M
  ∧ ∀ p ∈ st.inflight, 1 ≤ p.1

theorem fill_inflight_le {limit : Nat} {st : DriverState}
    (h : st.inflight.length ≤ limit) :
    (driver_fill limit st).inflight.length ≤ limit := by
  unfold driver_fill
  simp only [List.length_append, List.length_map, List.length_take]
  have hmin := Nat.min_le_left (limit - st.inflight.length) st.pending.length
  omega

theorem advance_inflight_le (st : DriverState) :
    (driver_advance st).inflight.length ≤ st.inflight.length := by
  unfold driver_advance
  calc ((st.inflight.map (fun p => (p.1 - 1, p.2))).filter
          (fun p => p.1 ≠ 0)).length
      ≤ (st.inflight.map (fun p => (p.1 - 1, p.2))).length :=
        List.length_filter_le _ _
    _ = st.inflight.length := List.length_map _ _

theorem step_inflight_le {limit : Nat} {st : DriverState}
    (h : st.inflight.length ≤ limit) :
    (driver_step limit st).inflight.length ≤ limit :=
  le_trans (advance_inflight_le (driver_fill limit st)) (fill_inflight_le h)

theorem run_inflight_le {limit : Nat} {st : DriverState}
    (h : st.inflight.length ≤ limit) :
    ∀ k, (driver_run limit k st).inflight.length ≤ limit := by
  intro k
  induction k generalizing st with
  | zero => exact h
  | succ k ih => exact ih (step_inflight_le h)

theorem filter_zero_split_length (l : List (Nat × Bool)) :
    (l.filter (fun p => p.1 ≠ 0)).length
      + (l.filter (fun p => p.1 = 0)).length = l.length := by
  induction l with
  | nil => rfl
  | cons p rest ih =>
    by_cases hp : p.1 = 0 <;> simp [List.filter_cons, hp] at ih ⊢ <;> omega

theorem fill_invariant {M limit : Nat} {st : DriverState}
    (h : driver_invariant M st) :
    driver_invariant M (driver_fill limit st) := by
  obtain ⟨hcount, hpos⟩ := h
  constructor
  · unfold driver_fill
    simp only [List.length_drop, List.length_append, List.length_map,
      List.length_take]
    have hmin := Nat.min_le_right (limit - st.inflight.length)
      st.pending.length
    omega
  · intro p hp
    unfold driver_fill at hp
    simp only [List.mem_append, List.mem_map] at hp
    rcases hp with hp | ⟨j, _, hj⟩
    · exact hpos p hp
    · rw [← hj]
      exact Nat.succ_le_succ (Nat.zero_le _)

theorem advance_invariant {M : Nat} {st : DriverState}
    (h : driver_invariant M st) :
    driver_invariant M (driver_advance st) := by
  obtain ⟨hcount, _⟩ := h
  constructor
  · unfold driver_advance
    simp only [List.length_append, List.length_map]
    have hsplit :=
      filter_zero_split_length (st.inflight.map (fun p => (p.1 - 1, p.2)))
    rw [List.length_map] at hsplit
    omega
  · intro p hp
    unfold driver_advance at hp
    simp only [List.mem_filter] at hp
    have := hp.2
    simp at this
    omega

theorem step_invariant {M limit : Nat} {st : DriverState}
    (h : driver_invariant M st) :
    driver_invariant M (driver_step limit st) :=
  advance_invariant (fill_invariant h)

theorem sum_map_fst_pred (l : List (Nat × Bool)) (h : ∀ p ∈ l, 1 ≤ p.1) :
    ((l.map (fun p => (p.1 - 1, p.2))).map Prod.fst).sum + l.length
      = (l.map Prod.fst).sum := by
  induction l with
  | nil => rfl
  | cons p rest ih =>
    have hp := h p (List.Mem.head _)
    have hrest := ih (fun q hq => h q (List.Mem.tail _ hq))
    simp only [List.map_cons, List.sum_cons, List.length_cons]
    omega

theorem sum_filter_ne_zero (l : List (Nat × Bool)) :
    ((l.filter (fun p => p.1 ≠ 0)).map Prod.fst).sum
      = (l.map Prod.fst).sum := by
  induction l with
  | nil => rfl
  | cons p rest ih =>
    by_cases hp : p.1 = 0 <;> simp [List.filter_cons, hp] at ih ⊢ <;> omega

theorem fill_measure (limit : Nat) (st : DriverState) :
    driver_measure (driver_fill limit st) = driver_measure st := by
  unfold driver_measure driver_fill
  simp only [List.map_append, List.map_map, List.sum_append]
  have hcomp : (st.pending.take (limit - st.inflight.length)).map
      (Prod.fst ∘ fun j => (j.steps + 1, j.fails))
      = (st.pending.take (limit - st.inflight.length)).map
          (fun j => j.steps + 1) := rfl
  rw [hcomp, List.map_take, List.map_drop]
  have hsplit :=
    (st.pending.map (fun j => j.steps + 1)).sum_take_add_sum_drop
      (limit - st.inflight.length)
  omega

theorem advance_measure {st : DriverState} (hpos : ∀ p ∈ st.inflight, 1 ≤ p.1) :
    driver_measure (driver_advance st) + st.inflight.length
      = driver_measure st := by
  unfold driver_measure driver_advance
  simp only
  rw [sum_filter_ne_zero]
  have := sum_map_fst_pred st.inflight hpos
  omega

theorem fill_not_done {limit : Nat} {st : DriverState} (hlim : 1 ≤ limit)
    (hnd : ¬(st.pending = [] ∧ st.inflight = [])) :
    (driver_fill limit st).inflight ≠ [] := by
  unfold driver_fill
  simp only [ne_eq, List.append_eq_nil]
  intro ⟨hinf, htake⟩
  rcases List.eq_nil_or_concat st.inflight with hi | ⟨_, _, hi⟩
  · rcases List.eq_nil_or_concat st.pending with hp | ⟨l, a, hp⟩
    · exact hnd ⟨hp, hi⟩
    · rw [List.map_eq_nil_iff, hi] at htake
      rw [hp] at htake
      have : (l ++ [a]).take limit ≠ [] := by
        intro hc
        have hlen := congrArg List.length hc
        simp [List.length_take] at hlen
        omega
      exact this (by simpa using htake)
  · rw [hi] at hinf
    simp at hinf

theorem step_measure_lt {M limit : Nat} {st : DriverState} (hlim : 1 ≤ limit)
    (hinv : driver_invariant M st) (hnd : ¬driver_done st) :
    driver_measure (driver_step limit st) < driver_measure st := by
  have hfillinv : driver_invariant M (driver_fill limit st) :=
    fill_invariant hinv
  have hadv := advance_measure hfillinv.2
  have hne : (driver_fill limit st).inflight ≠ [] :=
    fill_not_done hlim (by unfold driver_done at hnd; exact hnd)
  have hlen : 1 ≤ (driver_fill limit st).inflight.length :=
    List.length_pos.2 hne
  have hfm := fill_measure limit st
  unfold driver_step
  omega

theorem done_step {limit : Nat} {st : DriverState} (hd : driver_done st) :
    driver_step limit st = st := by
  obtain ⟨hp, hi⟩ := hd
  cases st with
  | mk pending inflight results =>
    simp only at hp hi
    subst hp
    subst hi
    unfold driver_step driver_fill driver_advance
    simp

theorem done_measure {st : DriverState} (hd : driver_done st) :
    driver_measure st = 0 := by
  obtain ⟨hp, hi⟩ := hd
  unfold driver_measure
  rw [hp, hi]
  rfl

theorem measure_zero_done {M : Nat} {st : DriverState}
    (hinv : driver_invariant M st) (hz : driver_measure st = 0) :
    driver_done st := by
  unfold driver_measure at hz
  constructor
  · cases hp : st.pending with
    | nil => rfl
    | cons j r =>
      exfalso
      rw [hp] at hz
      simp [List.sum_cons] at hz
  · cases hi : st.inflight with
    | nil => rfl
    | cons q r =>
      exfalso
      have hq := hinv.2 q (by rw [hi]; exact List.Mem.head _)
      rw [hi] at hz
      simp [List.sum_cons] at hz
      omega

theorem run_terminates {limit M : Nat} (hlim : 1 ≤ limit) :
    ∀ (fuel : Nat) (st : DriverState), driver_invariant M st →
      driver_measure st ≤ fuel →
      driver_done (driver_run limit fuel st)
      ∧ driver_invariant M (driver_run limit fuel st) := by
  intro fuel
  induction fuel with
  | zero =>
    intro st hinv hfuel
    have hz : driver_measure st = 0 := Nat.le_zero.1 hfuel
    exact ⟨measure_zero_done hinv hz, hinv⟩
  | succ fuel ih =>
    intro st hinv hfuel
    by_cases hd : driver_done st
    · have hrun : driver_run limit (fuel + 1) st = driver_run limit fuel st := by
        have h1 : driver_run limit (fuel + 1) st
            = driver_run limit fuel (driver_step limit st) := rfl
        rw [h1, done_step hd]
      rw [hrun]
      exact ih st hinv (by rw [done_measure hd]; exact Nat.zero_le _)
    · have hlt := step_measure_lt hlim hinv hd
      exact ih (driver_step limit st) (step_invariant hinv) (by omega)

/-! ## Claim theorems -/


/-- C3: over a store `{u1: {version: "1.0"}, u2: {error: "timeout"}, u3: {}}`,
`iter_instances` with `only_valid=true` yields exactly `[(u1, …)]`; and in
general, with `only_valid` set, every yielded record has a non-absent,
non-`None` `version` field and no `error` field. -/
theorem C3_iter_instances_only_valid :
    (iter_instances (demo_store false) true true NTArg.allTypes
       = [("u1", demo_valid)])
    ∧ ∀ (s : SearxStatisticsResult) (vp : Bool) (nt : NTArg)
        (url : String) (d : Record),
        (url, d) ∈ iter_instances s true vp nt →
        (∃ v, getv d "version" = some v ∧ v ≠ Value.vNone) ∧
          getv d "error" = none := by
  refine ⟨rfl, ?_⟩
  intro s vp nt url d h
  exact is_valid_instance_spec (iter_keep_only_valid (mem_iter_instances.1 h).2)

/-- C3 witness: the general part applied to the concrete demo store, whose
`only_valid` iteration yields `("u1", demo_valid)`. -/
theorem C3_iter_instances_only_valid_witness :
    (∃ v, getv demo_valid "version" = some v ∧ v ≠ Value.vNone) ∧
      getv demo_valid "error" = none :=
  C3_iter_instances_only_valid.2 (demo_store false) true NTArg.allTypes
    "u1" demo_valid (List.Mem.head _)

/-- C4: with `only_valid=false, valid_or_private=true` over
`{u1: valid, u2: invalid, u3: pending}`, a non-private store yields only
`u1`, while a private store yields `u1, u2, u3` in insertion order; in
general, on a private store the `valid_or_private` filter is bypassed and
only the network filter remains. -/
theorem C4_iter_instances_valid_or_private :
    (iter_instances (demo_store false) false true NTArg.allTypes
       = [("u1", demo_valid)])
    ∧ (iter_instances (demo_store true) false true NTArg.allTypes
       = [("u1", demo_valid), ("u2", demo_invalid), ("u3", demo_pending)])
    ∧ ∀ (s : SearxStatisticsResult) (vp : Bool) (nt : NTArg),
        s.private_ = true →
        iter_instances s false vp nt =
          s.instances.filter
            (fun p => (nt.normalize).contains (get_network_type p.1)) := by
  refine ⟨rfl, rfl, ?_⟩
  intro s vp nt hpriv
  unfold iter_instances
  apply List.filter_congr
  intro p _
  simp [iter_keep, hpriv]

/-- C4 witness: the general bypass part applied to the concrete private demo
store. -/
theorem C4_iter_instances_valid_or_private_witness :
    iter_instances (demo_store true) false true NTArg.allTypes =
      (demo_store true).instances.filter
        (fun p => ((NTArg.allTypes).normalize).contains (get_network_type p.1)) :=
  C4_iter_instances_valid_or_private.2.2 (demo_store true) true
    NTArg.allTypes rfl

/-- C5: the `dict_update` deep-merge used by `fetch_and_set` merges existing
subtrees key-by-key rather than replacing them wholesale and only overwrites
leaves at the target path: merging `{a: {x: 1}}` then `{a: {y: 2}}` into an
empty record yields `{a: {x: 1, y: 2}}`; applying the same (well-formed,
i.e. duplicate-free, as every Python dict is) fragment twice equals applying
it once; and top-level keys outside the merged path are left untouched. -/
theorem C5_dict_update_deep_merge :
    (dict_update (dict_update [] ["a"] (Value.vDict [("x", Value.vNat 1)]))
        ["a"] (Value.vDict [("y", Value.vNat 2)])
      = [("a", Value.vDict [("x", Value.vNat 1), ("y", Value.vNat 2)])])
    ∧ (∀ (d : List (String × Value)) (ks : List String) (v : Value),
        wf_fields d = true → wf_fragment v = true →
        dict_update (dict_update d ks v) ks v = dict_update d ks v)
    ∧ (∀ (d : List (String × Value)) (k : String) (ks : List String)
        (v : Value) (k' : String), k' ≠ k →
        getv (dict_update d (k :: ks) v) k' = getv d k') := by
  refine ⟨?_, ?_, ?_⟩
  · simp [dict_update, dict_merge, merge_step, merge_val, setKey, getv]
  · intro d ks v hd hv
    exact dict_update_idem ks d v hd hv
  · intro d k ks v k' h
    exact dict_update_getv_ne d k ks v h

/-- C5 witness: the idempotence and untouched-key parts applied to the
concrete record `{keep: 7}` and fragment `{x: 1}` at path `["a"]`. -/
theorem C5_dict_update_deep_merge_witness :
    (dict_update (dict_update [("keep", Value.vNat 7)] ["a"]
        (Value.vDict [("x", Value.vNat 1)])) ["a"]
        (Value.vDict [("x", Value.vNat 1)])
      = dict_update [("keep", Value.vNat 7)] ["a"]
          (Value.vDict [("x", Value.vNat 1)]))
    ∧ getv (dict_update [("keep", Value.vNat 7)] ["a"]
        (Value.vDict [("x", Value.vNat 1)])) "keep"
      = getv [("keep", Value.vNat 7)] "keep" :=
  ⟨C5_dict_update_deep_merge.2.1 [("keep", Value.vNat 7)] ["a"]
      (Value.vDict [("x", Value.vNat 1)])
      (by simp [wf_fields, wf_fragment, getv])
      (by simp [wf_fields, wf_fragment, getv]),
   C5_dict_update_deep_merge.2.2 [("keep", Value.vNat 7)] "a" []
      (Value.vDict [("x", Value.vNat 1)]) "keep" (by decide)⟩

/-- C6: `get_instance(url)` returns the stored Instance Record for a present
URL (without modifying the store — the embedding is a pure reader) and fails
with a `KeyError` for an absent URL, the error being returned to the caller,
not caught. -/
theorem C6_get_instance_lookup :
    ∀ (s : SearxStatisticsResult) (url : String),
      (∀ r, s.instances.lookup url = some r →
        get_instance s url = Except.ok r)
      ∧ (s.instances.lookup url = none →
        get_instance s url = Except.error "KeyError") := by
  intro s url
  constructor
  · intro r h
    unfold get_instance
    rw [h]
  · intro h
    unfold get_instance
    rw [h]

/-- C6 witness: applied to the demo store at a present URL (`u1`) and at an
absent URL. -/
theorem C6_get_instance_lookup_witness :
    get_instance (demo_store false) "u1" = Except.ok demo_valid
    ∧ get_instance (demo_store false) "nowhere" = Except.error "KeyError" :=
  ⟨(C6_get_instance_lookup (demo_store false) "u1").1 demo_valid rfl,
   (C6_get_instance_lookup (demo_store false) "nowhere").2 rfl⟩

/-- C7: the serialized structure built by `write` has exactly the fields
`metadata`, `instances`, `engines`, `engine_errors`, `categories`, `hashes`,
`cidrs`, `forks`, each bound to the corresponding store field, and the
`private` flag is never among them. -/
theorem C7_write_payload_fields :
    ∀ s : SearxStatisticsResult,
      ((write_payload s).map Prod.fst =
        ["metadata", "instances", "engines", "engine_errors", "categories",
         "hashes", "cidrs", "forks"])
      ∧ (write_payload s).lookup "metadata" = some (JsonField.ofRecord s.metadata)
      ∧ (write_payload s).lookup "instances" = some (JsonField.ofInstances s.instances)
      ∧ (write_payload s).lookup "engines" = some (JsonField.ofRecord s.engines)
      ∧ (write_payload s).lookup "engine_errors" = some (JsonField.ofValues s.engine_errors)
      ∧ (write_payload s).lookup "categories" = some (JsonField.ofValues s.categories)
      ∧ (write_payload s).lookup "hashes" = some (JsonField.ofValues s.hashes)
      ∧ (write_payload s).lookup "cidrs" = some (JsonField.ofRecord s.cidrs)
      ∧ (write_payload s).lookup "forks" = some (JsonField.ofStrings s.forks)
      ∧ "private" ∉ (write_payload s).map Prod.fst := by
  intro s
  refine ⟨rfl, rfl, rfl, rfl, rfl, rfl, rfl, rfl, rfl, ?_⟩
  simp [write_payload]

/-- C8: a record whose `version` key is bound to `None` is not valid —
`_is_valid_instance` requires the looked-up value to be non-`None`, not
merely present — so `only_valid` iteration never yields it, and a
non-private store with `valid_or_private` skips it too. -/
theorem C8_version_none_not_valid :
    (∀ d : Record, getv d "version" = some Value.vNone →
      is_valid_instance d = false)
    ∧ (∀ (s : SearxStatisticsResult) (vp : Bool) (nt : NTArg)
        (url : String) (d : Record),
        (url, d) ∈ iter_instances s true vp nt →
        getv d "version" ≠ some Value.vNone)
    ∧ (∀ (s : SearxStatisticsResult) (ov : Bool) (nt : NTArg)
        (url : String) (d : Record), s.private_ = false →
        (url, d) ∈ iter_instances s ov true nt →
        getv d "version" ≠ some Value.vNone) := by
  refine ⟨?_, ?_, ?_⟩
  · intro d h
    unfold is_valid_instance
    rw [h]
    rfl
  · intro s vp nt url d h hnone
    have hv := iter_keep_only_valid (mem_iter_instances.1 h).2
    unfold is_valid_instance at hv
    rw [hnone] at hv
    simp at hv
  · intro s ov nt url d hpriv h hnone
    have hk := (mem_iter_instances.1 h).2
    rw [hpriv] at hk
    have hv := iter_keep_valid_or_private hk
    unfold is_valid_instance at hv
    rw [hnone] at hv
    simp at hv

/-- C8 witness: applied to the concrete record `{version: None}` and to the
demo store (whose yielded `u1` record indeed has no `None` version). -/
theorem C8_version_none_not_valid_witness :
    is_valid_instance [("version", Value.vNone)] = false
    ∧ getv demo_valid "version" ≠ some Value.vNone :=
  ⟨C8_version_none_not_valid.1 [("version", Value.vNone)] rfl,
   C8_version_none_not_valid.2.1 (demo_store false) true NTArg.allTypes
     "u1" demo_valid (List.Mem.head _)⟩

/-- C9: `create_fetch_task` has no absent-entry-point fallback — a module
without a `fetch` function yields `task none` (the `None` returned by
`get_function` is passed along as the task body), which is not the no-op
task; `create_initialize_task`, in contrast, substitutes the no-op `dummy()`
whenever the module lacks an `initialize` function. -/
theorem C9_no_fetch_fallback :
    ∀ f : Fetcher,
      (f.get_function "fetch" = none →
        f.create_fetch_task = ProbeTask.task none)
      ∧ (f.get_function "initialize" = none →
        f.create_initialize_task = ProbeTask.dummy)
      ∧ ProbeTask.task none ≠ ProbeTask.dummy := by
  intro f
  refine ⟨?_, ?_, by intro h; exact ProbeTask.noConfusion h⟩
  · intro h
    unfold Fetcher.create_fetch_task
    rw [h]
    rfl
  · intro h
    unfold Fetcher.create_initialize_task
    rw [h]

/-- C9 witness: applied to a probe module with no attributes at all. -/
theorem C9_no_fetch_fallback_witness :
    demo_empty_fetcher.create_fetch_task = ProbeTask.task none
    ∧ demo_empty_fetcher.create_initialize_task = ProbeTask.dummy :=
  ⟨(C9_no_fetch_fallback demo_empty_fetcher).1 rfl,
   (C9_no_fetch_fallback demo_empty_fetcher).2.1 rfl⟩

/-- C1: for the job sequence of a probe's fetch pass (one job per
`(url, record)` pair yielded by `iter_instances`, as driven by the `for_each`
call inside the factory-produced `fetch`) and every positive limit `N` not
exceeding the pass size `M`, the driver never has more than `N` invocations
in flight at any scheduler tick (both after each tick and at the
fill-phase peak inside a tick), and within `driver_measure` ticks the pass
completes with all `M` elements attempted exactly once — whatever the
per-instance durations and failure outcomes are. -/
theorem C1_bounded_concurrency_fetch_pass :
    ∀ (s : SearxStatisticsResult) (ov vp : Bool) (nt : NTArg)
      (durations : String → Nat) (fails : String → Bool) (N : Nat),
      1 ≤ N →
      N ≤ (fetch_pass_jobs s ov vp nt durations fails).length →
      (∀ k, (driver_run N k
          (driver_init (fetch_pass_jobs s ov vp nt durations fails))).inflight.length
        ≤ N)
      ∧ (∀ k, (driver_fill N (driver_run N k
          (driver_init (fetch_pass_jobs s ov vp nt durations fails)))).inflight.length
        ≤ N)
      ∧ driver_done (driver_run N
          (driver_measure (driver_init (fetch_pass_jobs s ov vp nt durations fails)))
          (driver_init (fetch_pass_jobs s ov vp nt durations fails)))
      ∧ (driver_run N
          (driver_measure (driver_init (fetch_pass_jobs s ov vp nt durations fails)))
          (driver_init (fetch_pass_jobs s ov vp nt durations fails))).results.length
        = (fetch_pass_jobs s ov vp nt durations fails).length := by
  intro s ov vp nt durations fails N hN _
  have h0 : (driver_init (fetch_pass_jobs s ov vp nt durations fails)).inflight.length
      ≤ N := Nat.zero_le N
  have hinv0 : driver_invariant (fetch_pass_jobs s ov vp nt durations fails).length
      (driver_init (fetch_pass_jobs s ov vp nt durations fails)) := by
    constructor
    · simp [driver_init]
    · intro p hp
      simp [driver_init] at hp
  have hterm := run_terminates hN
    (driver_measure (driver_init (fetch_pass_jobs s ov vp nt durations fails)))
    (driver_init (fetch_pass_jobs s ov vp nt durations fails)) hinv0 le_rfl
  refine ⟨run_inflight_le h0, fun k => fill_inflight_le (run_inflight_le h0 k),
    hterm.1, ?_⟩
  obtain ⟨hcount, _⟩ := hterm.2
  obtain ⟨hp, hi⟩ := hterm.1
  rw [hp, hi] at hcount
  simpa using hcount

/-- C1 witness: one pass over the demo store (a single yielded instance)
with limit `1` and a failing invocation of duration `2`: the driver finishes
with one recorded attempt, and in-flight never exceeds `1`. -/
theorem C1_bounded_concurrency_fetch_pass_witness :
    driver_done (driver_run 1
      (driver_measure (driver_init (fetch_pass_jobs (demo_store false) true true
        NTArg.allTypes (fun _ => 1) (fun _ => true))))
      (driver_init (fetch_pass_jobs (demo_store false) true true
        NTArg.allTypes (fun _ => 1) (fun _ => true))))
    ∧ (driver_run 1
        (driver_measure (driver_init (fetch_pass_jobs (demo_store false) true true
          NTArg.allTypes (fun _ => 1) (fun _ => true))))
        (driver_init (fetch_pass_jobs (demo_store false) true true
          NTArg.allTypes (fun _ => 1) (fun _ => true)))).results.length
      = (fetch_pass_jobs (demo_store false) true true
          NTArg.allTypes (fun _ => 1) (fun _ => true)).length
    ∧ (driver_run 1 2 (driver_init (fetch_pass_jobs (demo_store false) true true
        NTArg.allTypes (fun _ => 1) (fun _ => true)))).inflight.length ≤ 1 := by
  have h := C1_bounded_concurrency_fetch_pass (demo_store false) true true
    NTArg.allTypes (fun _ => 1) (fun _ => true) 1 (le_refl 1)
    (by rw [show fetch_pass_jobs (demo_store false) true true NTArg.allTypes
          (fun _ => 1) (fun _ => true) = [⟨1, true⟩] from rfl]
        exact le_refl 1)
  exact ⟨h.2.2.1, h.2.2.2, h.1 2⟩

/-- C2: for every probe whose module has a `fetch` entry point and every
store, the task returned by `create_fetch_task` never lets an exception
escape: a raise inside `fetch` is converted into a logged, non-fatal outcome
(leaving the store as it was), and a normal return passes the updated store
through. -/
theorem C2_fetch_task_swallows_exceptions :
    ∀ (f : Fetcher) (fn : FetchFn) (s : SearxStatisticsResult),
      f.get_function "fetch" = some fn →
      ((f.create_fetch_task.run s).raised = none
       ∧ (∀ e, fn s = Except.error e →
           f.create_fetch_task.run s = ⟨s, some e, none⟩)
       ∧ (∀ s', fn s = Except.ok s' →
           f.create_fetch_task.run s = ⟨s', none, none⟩)) := by
  intro f fn s h
  have htask : f.create_fetch_task =
      ProbeTask.task (some (print_exception_wrapper fn)) := by
    unfold Fetcher.create_fetch_task
    rw [h]
    rfl
  rw [htask]
  refine ⟨?_, ?_, ?_⟩
  · show (⟨(print_exception_wrapper fn s).1, (print_exception_wrapper fn s).2,
      none⟩ : TaskOutcome).raised = none
    rfl
  · intro e he
    show (⟨(print_exception_wrapper fn s).1, (print_exception_wrapper fn s).2,
      none⟩ : TaskOutcome) = ⟨s, some e, none⟩
    unfold print_exception_wrapper
    rw [he]
  · intro s' hs'
    show (⟨(print_exception_wrapper fn s).1, (print_exception_wrapper fn s).2,
      none⟩ : TaskOutcome) = ⟨s', none, none⟩
    unfold print_exception_wrapper
    rw [hs']

/-- C2 witness: applied to a probe whose `fetch` always raises `"boom"`; the
task's outcome is the unchanged store with the exception logged, nothing
raised. -/
theorem C2_fetch_task_swallows_exceptions_witness :
    (demo_raising_fetcher.create_fetch_task.run (demo_store false)).raised = none
    ∧ demo_raising_fetcher.create_fetch_task.run (demo_store false) =
        ⟨demo_store false, some "boom", none⟩ :=
  ⟨(C2_fetch_task_swallows_exceptions demo_raising_fetcher demo_raising_fetch
      (demo_store false) rfl).1,
   (C2_fetch_task_swallows_exceptions demo_raising_fetcher demo_raising_fetch
      (demo_store false) rfl).2.1 "boom" rfl⟩

/-- C10: passing a single `NetworkType` member to `iter_instances` is the
same as passing the one-element list holding it (the member is normalized to
a singleton before filtering); and with the default argument (the
`NetworkType` enumeration itself) every URL's network type passes, so only
the validity filters remain. -/
theorem C10_network_type_normalization :
    (∀ (s : SearxStatisticsResult) (ov vp : Bool) (t : NetworkType),
      iter_instances s ov vp (NTArg.single t) =
        iter_instances s ov vp (NTArg.listOf [t]))
    ∧ (∀ url : String,
        ((NTArg.allTypes).normalize).contains (get_network_type url) = true)
    ∧ (∀ (s : SearxStatisticsResult) (ov vp : Bool),
        iter_instances s ov vp NTArg.allTypes =
          s.instances.filter
            (fun p => !(ov && !is_valid_instance p.2) &&
              !(vp && !s.private_ && !is_valid_instance p.2))) := by
  refine ⟨fun s ov vp t => rfl, ?_, ?_⟩
  · intro url
    cases h : get_network_type url <;> rfl
  · intro s ov vp
    have hc : ∀ u, ((NTArg.allTypes).normalize).contains (get_network_type u)
        = true := by
      intro u
      cases h : get_network_type u <;> rfl
    unfold iter_instances
    apply List.filter_congr
    intro p _
    unfold iter_keep
    rw [hc p.1]
    simp

end SearxSpace
